import Mathlib

/-!
# Verification of `str_indices` char indexing (`src/chars.rs`)

A shallow embedding of the char-indexing routines of the `str_indices`
crate: `count` / `count_impl`, `from_byte_idx`, `to_byte_idx` /
`to_byte_idx_impl`.  Strings are modelled as lists of byte values
(`List Nat`, each element a byte `< 256`; the classification mask
`&&& 0xC0` only ever looks at the low 8 bits, so larger values are
harmless and never arise in the theorems).

The chunk type `Chunk` from `byte_chunk.rs` is not part of the sources
at hand; it is modelled from the spec (§4.1) as a fixed vector of
`SIZE = 16` byte lanes with per-lane operations and wrapping per-lane
addition.  The alignment-dependent split produced by `align_to::<T>()`
is modelled by an explicit head-length parameter `hd`: the head is the
first `hd` bytes, the middle is the maximal run of whole 16-byte chunks
after it, the tail is the remainder.  All theorems quantify over `hd`,
so they cover every split `align_to` can produce.
-/

namespace StrIndices

/-- A byte is a UTF-8 continuation byte: its top two bits are `10`.
Mirrors the test `(byte & 0xC0) == 0x80` used throughout `chars.rs`. -/
def isCont (b : Nat) : Bool := b &&& 0xC0 == 0x80

/-- Contribution of one byte to the char count: `1` for a
non-continuation byte, `0` for a continuation byte. -/
def ncbyte (b : Nat) : Nat := if isCont b then 0 else 1

/-- Contribution of one byte to the continuation-byte count. -/
def contb (b : Nat) : Nat := if isCont b then 1 else 0

/-- Number of non-continuation bytes in a byte list: the byte-by-byte
char count (`count_impl`'s short-string branch). -/
def countByByte (bytes : List Nat) : Nat := (bytes.map ncbyte).sum

/-- Number of continuation bytes in a byte list. -/
def contCount (bytes : List Nat) : Nat := (bytes.map contb).sum

/-- Modelled from the spec: `T::SIZE`, the chunk width in bytes
(`byte_chunk.rs` is not among the sources; spec §4.1 fixes `SIZE = 16`
and `count_impl` asserts `size_of::<T>() == 16`). -/
def SIZE : Nat := 16

/-- Modelled from the spec: `T::MAX_ACC`, the largest number of
chunk-wise additions per accumulation round such that no byte lane can
exceed 255 when each addend contributes at most 1 per lane. -/
def MAX_ACC : Nat := 255

/-- Modelled from the spec: `T::splat(b)` — a chunk with every lane `b`. -/
def splat (b : Nat) : List Nat := List.replicate SIZE b

/-- Modelled from the spec: `T::zero()` — the all-zero chunk. -/
def chunkZero : List Nat := List.replicate SIZE 0

/-- Modelled from the spec: per-lane bitwise AND of two chunks. -/
def bitand (a b : List Nat) : List Nat := List.zipWith (fun x y => x &&& y) a b

/-- Modelled from the spec: `cmp_eq_byte` — each lane becomes `1` if it
equals `b`, else `0`. -/
def cmpEqByte (c : List Nat) (b : Nat) : List Nat :=
  c.map (fun x => if x = b then 1 else 0)

/-- Modelled from the spec: per-lane addition, wrapping on byte overflow. -/
def chunkAdd (a b : List Nat) : List Nat :=
  List.zipWith (fun x y => (x + y) % 256) a b

/-- Modelled from the spec: `sum_bytes` — horizontal sum of all lanes. -/
def sumBytes (c : List Nat) : Nat := c.sum

/-- The per-chunk continuation mask used at both call sites:
`chunk.bitand(T::splat(0xc0)).cmp_eq_byte(0x80)`. -/
def contMask (c : List Nat) : List Nat := cmpEqByte (bitand c (splat 0xC0)) 0x80

/-- One accumulation round: fold the continuation masks of the round's
chunks into a single accumulator with wrapping per-lane addition
(`acc = acc.add(chunk.bitand(T::splat(0xc0)).cmp_eq_byte(0x80))`). -/
def roundAcc (round : List (List Nat)) : List Nat :=
  round.foldl (fun acc c => chunkAdd acc (contMask c)) chunkZero

/-- The same accumulation with exact (non-wrapping) per-lane addition;
used to state that the wrapping addition never actually wraps. -/
def roundAccExact (round : List (List Nat)) : List Nat :=
  round.foldl (fun acc c => List.zipWith (fun x y => x + y) acc (contMask c)) chunkZero

/-- Split a list into consecutive groups of `n` elements (the last group
may be shorter); fuel-driven so that it reduces definitionally.
Models both `middle.chunks(T::MAX_ACC)` and the decomposition of the
aligned middle region into `SIZE`-byte chunks. -/
def groupsOfAux (n : Nat) : Nat → List α → List (List α)
  | 0, _ => []
  | _ + 1, [] => []
  | fuel + 1, x :: xs =>
    if n = 0 then [] else
      (x :: xs).take n :: groupsOfAux n fuel ((x :: xs).drop n)

/-- Split a list into consecutive groups of `n` elements. -/
def groupsOf (n : Nat) (l : List α) : List (List α) := groupsOfAux n l.length l

/-- `count_impl::<Chunk>` from `chars.rs`, with the alignment split
abstracted by the head length `hd` (see the file header).  The middle
is scanned in rounds of at most `MAX_ACC` chunks, each round summed
with the wrapping accumulator. -/
def count_impl (bytes : List Nat) (hd : Nat) : Nat :=
  if bytes.length < SIZE then
    countByByte bytes
  else
    let s := bytes.take hd
    let rest := bytes.drop hd
    let m := rest.length / SIZE
    let mid := groupsOf SIZE (rest.take (m * SIZE))
    let e := rest.drop (m * SIZE)
    let inv := contCount s +
      ((groupsOf MAX_ACC mid).map (fun round => sumBytes (roundAcc round))).sum +
      contCount e
    bytes.length - inv

/-- `count` from `chars.rs`: delegates to `count_impl`. -/
def count (bytes : List Nat) (hd : Nat) : Nat := count_impl bytes hd

/-- The byte-by-byte scan loop shared by the head and tail phases of
`to_byte_idx_impl`: for each byte, bump the char count on a
non-continuation byte, stop (without bumping the byte count) the moment
the char count exceeds `charIdx`, otherwise bump the byte count and
continue.  Returns the final `(char_count, byte_count)` state. -/
def byteScan (charIdx : Nat) : List Nat → Nat → Nat → Nat × Nat
  | [], cc, bc => (cc, bc)
  | b :: rest, cc, bc =>
    let cc' := cc + ncbyte b
    if charIdx < cc' then (cc', bc)
    else byteScan charIdx rest cc' (bc + 1)

/-- The fast-skip loop of `to_byte_idx_impl`: while the round budget
`mrl` (`max_round_len`) is positive and chunks remain, consume a round
of `min MAX_ACC (min mrl chunks.length)` chunks, add its wrapped
accumulator total to the counters, and shrink the budget by the round
length.  `fuel` drives the recursion; every iteration spends at least
one unit of budget, so `fuel = mrl` suffices (see `fastSkip_spec`).
Returns `(remaining chunks, char_count, byte_count)`. -/
def fastSkip : Nat → Nat → List (List Nat) → Nat → Nat →
    List (List Nat) × Nat × Nat
  | 0, _, chunks, cc, bc => (chunks, cc, bc)
  | fuel + 1, mrl, chunks, cc, bc =>
    if mrl = 0 ∨ chunks = [] then (chunks, cc, bc)
    else
      let roundLen := min MAX_ACC (min mrl chunks.length)
      let s := sumBytes (roundAcc (chunks.take roundLen))
      fastSkip fuel (mrl - roundLen) (chunks.drop roundLen)
        (cc + (SIZE * roundLen - s)) (bc + SIZE * roundLen)

/-- The slow per-chunk loop of `to_byte_idx_impl`: for each chunk
compute the char count as if the chunk were fully consumed; stop before
consuming it when that reaches `charIdx`, otherwise commit it. -/
def slowScan (charIdx : Nat) : List (List Nat) → Nat → Nat → Nat × Nat
  | [], cc, bc => (cc, bc)
  | c :: rest, cc, bc =>
    let ncc := cc + SIZE - sumBytes (contMask c)
    if charIdx ≤ ncc then (cc, bc)
    else slowScan charIdx rest ncc (bc + SIZE)

/-- `to_byte_idx_impl::<Chunk>` from `chars.rs`, with the alignment
split abstracted by the head length `hd`: scan the head byte-by-byte,
fast-skip whole rounds of middle chunks, scan remaining middle chunks
one at a time, then finish byte-by-byte from wherever the byte counter
stopped. -/
def to_byte_idx_impl (bytes : List Nat) (hd charIdx : Nat) : Nat :=
  let s := bytes.take hd
  let rest := bytes.drop hd
  let m := rest.length / SIZE
  let mid := groupsOf SIZE (rest.take (m * SIZE))
  let st0 := byteScan charIdx s 0 0
  let mrl := (charIdx - st0.1) / MAX_ACC
  let st1 := fastSkip mrl mrl mid st0.1 st0.2
  let st2 := slowScan charIdx st1.1 st1.2.1 st1.2.2
  let st3 := byteScan charIdx (bytes.drop st2.2) st2.1 st2.2
  st3.2

/-- `to_byte_idx` from `chars.rs`: delegates to `to_byte_idx_impl`. -/
def to_byte_idx (bytes : List Nat) (hd charIdx : Nat) : Nat :=
  to_byte_idx_impl bytes hd charIdx

/-- Whether the byte at position `i` is a continuation byte; positions
past the end read as the (non-continuation) byte `0`, matching
`bytes.get(i).map(|byte| (*byte & 0xC0) == 0x80)` being `None` there. -/
def contAt (bytes : List Nat) (i : Nat) : Bool := isCont (bytes.getD i 0)

/-- The backward walk of `from_byte_idx`: decrement `i` while the byte
at `i` is a continuation byte.  Decrementing `i = 0` underflows the
`usize` index in the source; that outcome is modelled as `none`. -/
def snapBack (bytes : List Nat) : Nat → Option Nat
  | 0 => if contAt bytes 0 then none else some 0
  | i + 1 => if contAt bytes (i + 1) then snapBack bytes i else some (i + 1)

/-- `from_byte_idx` from `chars.rs`: snap `byte_idx` back to a char
boundary, then count the chars in the prefix `[0, boundary)`.
`hd` is the head length of the alignment split used by the inner
`count_impl` call. -/
def from_byte_idx (bytes : List Nat) (byteIdx hd : Nat) : Option Nat :=
  (snapBack bytes byteIdx).map
    (fun i => count_impl (bytes.take (min i bytes.length)) hd)

/-- Modelled from the spec: the naive per-byte reference for
`to_byte_idx` — walk the bytes one at a time counting non-continuation
bytes, and return the byte offset at which the running character count
first exceeds `char_idx` (the byte length when it never does). -/
def naiveScan (charIdx : Nat) : List Nat → Nat → Nat → Nat
  | [], _, bc => bc
  | b :: rest, cc, bc =>
    let cc' := cc + ncbyte b
    if charIdx < cc' then bc
    else naiveScan charIdx rest cc' (bc + 1)

/-- Modelled from the spec: the naive reference seek, started from a
zeroed state. -/
def to_byte_idx_naive (bytes : List Nat) (charIdx : Nat) : Nat :=
  naiveScan charIdx bytes 0 0

/-- UTF-8 encoding of one Unicode scalar value, by the standard rules. -/
def encodeChar (c : Nat) : List Nat :=
  if c < 0x80 then [c]
  else if c < 0x800 then
    [0xC0 ||| (c >>> 6), 0x80 ||| (c &&& 0x3F)]
  else if c < 0x10000 then
    [0xE0 ||| (c >>> 12), 0x80 ||| ((c >>> 6) &&& 0x3F), 0x80 ||| (c &&& 0x3F)]
  else
    [0xF0 ||| (c >>> 18), 0x80 ||| ((c >>> 12) &&& 0x3F),
     0x80 ||| ((c >>> 6) &&& 0x3F), 0x80 ||| (c &&& 0x3F)]

/-- A Unicode scalar value: a code point below `0x110000` that is not a
surrogate. -/
def IsScalar (c : Nat) : Prop := c < 0x110000 ∧ ¬(0xD800 ≤ c ∧ c ≤ 0xDFFF)

instance (c : Nat) : Decidable (IsScalar c) := by
  unfold IsScalar
  infer_instance

/-- `bytes` is the valid UTF-8 encoding of the scalar-value sequence `cs`. -/
def ValidUtf8 (bytes cs : List Nat) : Prop :=
  (∀ c ∈ cs, IsScalar c) ∧ bytes = (cs.map encodeChar).flatten

/-- Byte offset of the start of character `k` in the character sequence
`cs` (the total encoded length when `k ≥ cs.length`). -/
def offsetOf : List Nat → Nat → Nat
  | _, 0 => 0
  | [], _ + 1 => 0
  | c :: rest, k + 1 => (encodeChar c).length + offsetOf rest k

/-! ## Basic counting lemmas -/

theorem ncbyte_add_contb (b : Nat) : ncbyte b + contb b = 1 := by
  unfold ncbyte contb; cases h : isCont b <;> simp

theorem countByByte_append (xs ys : List Nat) :
    countByByte (xs ++ ys) = countByByte xs + countByByte ys := by
  simp [countByByte]

theorem contCount_append (xs ys : List Nat) :
    contCount (xs ++ ys) = contCount xs + contCount ys := by
  simp [contCount]

theorem countByByte_add_contCount (xs : List Nat) :
    countByByte xs + contCount xs = xs.length := by
  induction xs with
  | nil => rfl
  | cons b rest ih =>
    have hb := ncbyte_add_contb b
    simp only [countByByte, contCount, List.map_cons, List.sum_cons,
      List.length_cons] at *
    omega

theorem contCount_le_length (xs : List Nat) : contCount xs ≤ xs.length := by
  have := countByByte_add_contCount xs; omega

theorem countByByte_eq_sub (xs : List Nat) :
    countByByte xs = xs.length - contCount xs := by
  have := countByByte_add_contCount xs; omega

theorem contCount_flatten (L : List (List Nat)) :
    contCount L.flatten = (L.map contCount).sum := by
  induction L with
  | nil => rfl
  | cons x xs ih => simp [contCount_append, ih]

theorem countByByte_flatten (L : List (List Nat)) :
    countByByte L.flatten = (L.map countByByte).sum := by
  induction L with
  | nil => rfl
  | cons x xs ih => simp [countByByte_append, ih]

theorem countByByte_take_le (xs : List Nat) {a b : Nat} (h : a ≤ b) :
    countByByte (xs.take a) ≤ countByByte (xs.take b) := by
  have hsplit : xs.take b = xs.take a ++ (xs.drop a).take (b - a) := by
    rw [← List.take_add]; congr 1; omega
  rw [hsplit, countByByte_append]; omega

/-! ## Chunk-accumulator lemmas (no-wrap) -/

theorem zipWith_replicate_right {α β γ : Type} (f : α → β → γ) (l : List α)
    (n : Nat) (a : β) (h : l.length ≤ n) :
    List.zipWith f l (List.replicate n a) = l.map (fun x => f x a) := by
  induction l generalizing n with
  | nil => simp
  | cons x xs ih =>
    cases n with
    | zero => simp at h
    | succ m =>
      simp only [List.replicate_succ, List.zipWith_cons_cons, List.map_cons]
      rw [ih m (by simpa using h)]

theorem contMask_eq_map (c : List Nat) (h : c.length ≤ SIZE) :
    contMask c = c.map contb := by
  unfold contMask cmpEqByte bitand splat
  rw [zipWith_replicate_right _ _ _ _ h, List.map_map]
  apply List.map_congr_left
  intro x _
  simp only [Function.comp_apply, contb, isCont]
  simp [beq_iff_eq]

theorem contMask_length (c : List Nat) : (contMask c).length = min c.length SIZE := by
  simp [contMask, cmpEqByte, bitand, splat]

theorem contMask_mem_le_one (c : List Nat) : ∀ x ∈ contMask c, x ≤ 1 := by
  intro x hx
  simp only [contMask, cmpEqByte, List.mem_map] at hx
  obtain ⟨y, -, hy⟩ := hx
  split at hy <;> omega

theorem sum_contMask (c : List Nat) (h : c.length ≤ SIZE) :
    sumBytes (contMask c) = contCount c := by
  rw [contMask_eq_map c h]; rfl

theorem sum_contMask_le (c : List Nat) : sumBytes (contMask c) ≤ SIZE := by
  have hlen := contMask_length c
  have h1 := contMask_mem_le_one c
  calc sumBytes (contMask c) ≤ (contMask c).length * 1 := List.sum_le_card_nsmul _ 1 h1
    _ ≤ SIZE := by omega

theorem mem_zipWith {α β γ : Type} {f : α → β → γ} {a : List α} {b : List β}
    {z : γ} (h : z ∈ List.zipWith f a b) : ∃ x ∈ a, ∃ y ∈ b, z = f x y := by
  induction a generalizing b with
  | nil => simp at h
  | cons x xs ih =>
    cases b with
    | nil => simp at h
    | cons y ys =>
      simp only [List.zipWith_cons_cons, List.mem_cons] at h
      rcases h with h | h
      · exact ⟨x, by simp, y, by simp, h⟩
      · obtain ⟨x', hx', y', hy', hz⟩ := ih h
        exact ⟨x', by simp [hx'], y', by simp [hy'], hz⟩

theorem zipWith_mod256 (a b : List Nat)
    (h : ∀ x ∈ a, ∀ y ∈ b, x + y < 256) :
    List.zipWith (fun x y => (x + y) % 256) a b = List.zipWith (fun x y => x + y) a b := by
  induction a generalizing b with
  | nil => simp
  | cons x xs ih =>
    cases b with
    | nil => simp
    | cons y ys =>
      simp only [List.zipWith_cons_cons]
      rw [Nat.mod_eq_of_lt (h x (by simp) y (by simp)),
        ih ys (fun u hu v hv => h u (by simp [hu]) v (by simp [hv]))]

theorem foldl_chunkAdd_eq_exact (ms : List (List Nat)) :
    ∀ acc : List Nat, (∀ m ∈ ms, ∀ x ∈ m, x ≤ 1) →
    (∀ x ∈ acc, x + ms.length ≤ 255) →
    ms.foldl chunkAdd acc = ms.foldl (fun a m => List.zipWith (fun x y => x + y) a m) acc := by
  induction ms with
  | nil => intro acc _ _; rfl
  | cons m rest ih =>
    intro acc hms hacc
    simp only [List.foldl_cons]
    have hstep : chunkAdd acc m = List.zipWith (fun x y => x + y) acc m := by
      apply zipWith_mod256
      intro x hx y hy
      have h1 := hacc x hx
      have h2 := hms m (by simp) y hy
      simp only [List.length_cons] at h1
      omega
    rw [hstep]
    apply ih
    · intro m' hm' x hx; exact hms m' (by simp [hm']) x hx
    · intro x hx
      obtain ⟨u, hu, v, hv, hxy⟩ := mem_zipWith hx
      have h1 := hacc u hu
      have h2 := hms m (by simp) v hv
      simp only [List.length_cons] at h1
      omega

theorem sum_zipWith_add (a : List Nat) :
    ∀ b : List Nat, a.length = b.length →
    (List.zipWith (fun x y => x + y) a b).sum = a.sum + b.sum := by
  induction a with
  | nil => intro b h; simp_all [(List.length_eq_zero.mp h.symm)]
  | cons x xs ih =>
    intro b h
    cases b with
    | nil => simp at h
    | cons y ys =>
      simp only [List.zipWith_cons_cons, List.sum_cons]
      rw [ih ys (by simpa using h)]
      omega

theorem foldl_zipAdd_sum (ms : List (List Nat)) :
    ∀ acc : List Nat, acc.length = SIZE → (∀ m ∈ ms, m.length = SIZE) →
    (ms.foldl (fun a m => List.zipWith (fun x y => x + y) a m) acc).sum =
      acc.sum + (ms.map List.sum).sum := by
  induction ms with
  | nil => intro acc _ _; simp
  | cons m rest ih =>
    intro acc hacc hms
    simp only [List.foldl_cons, List.map_cons, List.sum_cons]
    have hm : m.length = SIZE := hms m (by simp)
    have hlen : (List.zipWith (fun x y => x + y) acc m).length = SIZE := by
      simp [hacc, hm]
    rw [ih _ hlen (fun m' hm' => hms m' (by simp [hm'])),
        sum_zipWith_add acc m (by omega)]
    omega

theorem foldl_zipAdd_bound (ms : List (List Nat)) :
    ∀ (acc : List Nat) (k : Nat), (∀ m ∈ ms, ∀ x ∈ m, x ≤ 1) →
    (∀ x ∈ acc, x ≤ k) →
    ∀ x ∈ ms.foldl (fun a m => List.zipWith (fun x y => x + y) a m) acc,
      x ≤ k + ms.length := by
  induction ms with
  | nil => intro acc k _ hacc x hx; simpa using hacc x hx
  | cons m rest ih =>
    intro acc k hms hacc x hx
    simp only [List.foldl_cons] at hx
    have := ih (List.zipWith (fun x y => x + y) acc m) (k + 1)
      (fun m' hm' => hms m' (by simp [hm']))
      (by
        intro z hz
        obtain ⟨u, hu, v, hv, hz'⟩ := mem_zipWith hz
        have h1 := hacc u hu
        have h2 := hms m (by simp) v hv
        omega)
      x hx
    simp only [List.length_cons]
    omega

/-- The central no-wrap fact: an accumulation round of at most `MAX_ACC`
chunks of `SIZE` bytes produces exactly the continuation-byte count of
the round's bytes, the wrapping addition agreeing with exact addition
and every lane staying at most `round.length ≤ MAX_ACC`. -/
theorem roundAcc_spec (round : List (List Nat))
    (hlen : round.length ≤ MAX_ACC) (hsz : ∀ c ∈ round, c.length = SIZE) :
    roundAcc round = roundAccExact round ∧
    (∀ x ∈ roundAcc round, x ≤ round.length) ∧
    sumBytes (roundAcc round) = contCount round.flatten := by
  have hmask1 : ∀ m ∈ round.map contMask, ∀ x ∈ m, x ≤ 1 := by
    intro m hm x hx
    obtain ⟨c, -, rfl⟩ := List.mem_map.mp hm
    exact contMask_mem_le_one c x hx
  have hmasksz : ∀ m ∈ round.map contMask, m.length = SIZE := by
    intro m hm
    obtain ⟨c, hc, rfl⟩ := List.mem_map.mp hm
    rw [contMask_length, hsz c hc]; simp
  have hz0 : ∀ x ∈ chunkZero, x ≤ 0 := by
    intro x hx; simp [chunkZero] at hx; omega
  have hexact : roundAcc round = roundAccExact round := by
    unfold roundAcc roundAccExact
    rw [← List.foldl_map contMask chunkAdd round chunkZero,
        ← List.foldl_map contMask (fun a m => List.zipWith (fun x y => x + y) a m)
          round chunkZero]
    apply foldl_chunkAdd_eq_exact _ _ hmask1
    intro x hx
    simp only [chunkZero, List.mem_replicate] at hx
    simp only [List.length_map]
    have h255 : MAX_ACC = 255 := rfl
    omega
  refine ⟨hexact, ?_, ?_⟩
  · rw [hexact]
    unfold roundAccExact
    rw [← List.foldl_map contMask (fun a m => List.zipWith (fun x y => x + y) a m)
          round chunkZero]
    intro x hx
    have := foldl_zipAdd_bound (round.map contMask) chunkZero 0 hmask1 hz0 x hx
    simpa using this
  · rw [hexact]
    unfold roundAccExact sumBytes
    rw [← List.foldl_map contMask (fun a m => List.zipWith (fun x y => x + y) a m)
          round chunkZero]
    rw [foldl_zipAdd_sum _ chunkZero (by simp [chunkZero, SIZE]) hmasksz]
    have hzsum : chunkZero.sum = 0 := by simp [chunkZero]
    rw [hzsum, contCount_flatten]
    simp only [List.map_map, Nat.zero_add]
    congr 1
    apply List.map_congr_left
    intro c hc
    have := sum_contMask c (by rw [hsz c hc])
    simpa [sumBytes] using this

/-! ## `groupsOf` lemmas -/

theorem groupsOfAux_flatten {α : Type} (n : Nat) (hn : 1 ≤ n) :
    ∀ (fuel : Nat) (l : List α), l.length ≤ fuel →
    (groupsOfAux n fuel l).flatten = l := by
  intro fuel
  induction fuel with
  | zero =>
    intro l hl
    have : l = [] := List.length_eq_zero.mp (by omega)
    subst this; rfl
  | succ fuel ih =>
    intro l hl
    cases l with
    | nil => rfl
    | cons x xs =>
      simp only [groupsOfAux, if_neg (by omega : ¬ n = 0), List.flatten_cons]
      simp only [List.length_cons] at hl
      rw [ih ((x :: xs).drop n)
        (by simp only [List.length_drop, List.length_cons]; omega)]
      exact List.take_append_drop n (x :: xs)

theorem groupsOf_flatten {α : Type} (n : Nat) (hn : 1 ≤ n) (l : List α) :
    (groupsOf n l).flatten = l :=
  groupsOfAux_flatten n hn l.length l le_rfl

theorem groupsOfAux_mem_length {α : Type} (n : Nat) :
    ∀ (fuel : Nat) (l : List α) (g : List α),
    g ∈ groupsOfAux n fuel l → g.length ≤ n := by
  intro fuel
  induction fuel with
  | zero => intro l g hg; simp [groupsOfAux] at hg
  | succ fuel ih =>
    intro l g hg
    cases l with
    | nil => simp [groupsOfAux] at hg
    | cons x xs =>
      simp only [groupsOfAux] at hg
      split at hg
      · simp at hg
      · rcases List.mem_cons.mp hg with h | h
        · subst h; simp
        · exact ih _ g h

theorem groupsOf_mem_length {α : Type} (n : Nat) (l : List α) (g : List α)
    (hg : g ∈ groupsOf n l) : g.length ≤ n :=
  groupsOfAux_mem_length n l.length l g hg

theorem groupsOfAux_mem_length_eq {α : Type} (n : Nat) (hn : 1 ≤ n) :
    ∀ (fuel : Nat) (l : List α) (g : List α), l.length ≤ fuel →
    n ∣ l.length → g ∈ groupsOfAux n fuel l → g.length = n := by
  intro fuel
  induction fuel with
  | zero => intro l g _ _ hg; simp [groupsOfAux] at hg
  | succ fuel ih =>
    intro l g hl hdvd hg
    cases l with
    | nil => simp [groupsOfAux] at hg
    | cons x xs =>
      simp only [groupsOfAux, if_neg (by omega : ¬ n = 0)] at hg
      have hlen : n ≤ (x :: xs).length :=
        Nat.le_of_dvd (by simp) hdvd
      simp only [List.length_cons] at hlen hl
      rcases List.mem_cons.mp hg with h | h
      · subst h
        simp only [List.length_take, List.length_cons]
        omega
      · apply ih ((x :: xs).drop n) g
        · simp only [List.length_drop, List.length_cons]; omega
        · rw [List.length_drop]
          exact Nat.dvd_sub' hdvd dvd_rfl
        · exact h

theorem groupsOf_mem_length_eq {α : Type} (n : Nat) (hn : 1 ≤ n)
    (l : List α) (hdvd : n ∣ l.length) (g : List α)
    (hg : g ∈ groupsOf n l) : g.length = n :=
  groupsOfAux_mem_length_eq n hn l.length l g le_rfl hdvd hg

/-! ## The count engine computes the byte-by-byte count -/

/-- The middle region selected by the head-length decomposition has a
length divisible by `SIZE`. -/
theorem midB_dvd (bytes : List Nat) (hd : Nat) :
    SIZE ∣ ((bytes.drop hd).take
      ((bytes.drop hd).length / SIZE * SIZE)).length := by
  have hle : (bytes.drop hd).length / SIZE * SIZE ≤ (bytes.drop hd).length :=
    Nat.div_mul_le_self _ _
  have : ((bytes.drop hd).take
      ((bytes.drop hd).length / SIZE * SIZE)).length =
      (bytes.drop hd).length / SIZE * SIZE := by
    simp only [List.length_take]; omega
  rw [this]
  exact dvd_mul_left SIZE _
 
/-- The head/middle/tail decomposition reassembles to the input. -/
theorem bytes_split (bytes : List Nat) (hd : Nat) :
    bytes = bytes.take hd ++
      (bytes.drop hd).take ((bytes.drop hd).length / SIZE * SIZE) ++
      (bytes.drop hd).drop ((bytes.drop hd).length / SIZE * SIZE) := by
  rw [List.append_assoc, List.take_append_drop, List.take_append_drop]

/-- Every chunk produced by the middle decomposition has exactly
`SIZE` bytes. -/
theorem mid_chunk_lengths (bytes : List Nat) (hd : Nat) :
    ∀ c ∈ groupsOf SIZE ((bytes.drop hd).take
      ((bytes.drop hd).length / SIZE * SIZE)), c.length = SIZE := by
  intro c hc
  exact groupsOf_mem_length_eq SIZE (by norm_num [SIZE]) _
    (midB_dvd bytes hd) c hc

/-- The chunked middle scan of `count_impl` (rounds of at most `MAX_ACC`
chunks, wrapped accumulators, horizontal sums) totals exactly the
continuation-byte count of the middle bytes. -/
theorem count_middle_eq (midB : List Nat) (hdvd : SIZE ∣ midB.length) :
    ((groupsOf MAX_ACC (groupsOf SIZE midB)).map
      (fun round => sumBytes (roundAcc round))).sum = contCount midB := by
  set mid := groupsOf SIZE midB with hmid
  have hchunks : ∀ c ∈ mid, c.length = SIZE := fun c hc =>
    groupsOf_mem_length_eq SIZE (by norm_num [SIZE]) _ hdvd c hc
  have hround : ∀ r ∈ groupsOf MAX_ACC mid,
      sumBytes (roundAcc r) = contCount r.flatten := by
    intro r hr
    refine (roundAcc_spec r (groupsOf_mem_length MAX_ACC mid r hr) ?_).2.2
    intro c hc
    have hcmid : c ∈ mid := by
      have := List.mem_flatten.mpr ⟨r, hr, hc⟩
      rwa [groupsOf_flatten MAX_ACC (by norm_num [MAX_ACC]) mid] at this
    exact hchunks c hcmid
  rw [List.map_congr_left hround]
  have hflat : (groupsOf MAX_ACC mid).flatten = mid :=
    groupsOf_flatten MAX_ACC (by norm_num [MAX_ACC]) mid
  calc ((groupsOf MAX_ACC mid).map (fun r => contCount r.flatten)).sum
      = (((groupsOf MAX_ACC mid).map (fun r => r.flatten)).map contCount).sum := by
        rw [List.map_map]; rfl
    _ = contCount (((groupsOf MAX_ACC mid).map (fun r => r.flatten)).flatten) := by
        rw [contCount_flatten]
    _ = contCount midB := by
        rw [← List.flatten_flatten, hflat,
          groupsOf_flatten SIZE (by norm_num [SIZE]) midB]

/-- `count_impl` agrees with the naive byte-by-byte count for every
input and every alignment split. -/
theorem count_impl_eq (bytes : List Nat) (hd : Nat) :
    count_impl bytes hd = countByByte bytes := by
  unfold count_impl
  split
  · rfl
  · show bytes.length -
      (contCount (bytes.take hd) +
        ((groupsOf MAX_ACC (groupsOf SIZE ((bytes.drop hd).take
          ((bytes.drop hd).length / SIZE * SIZE)))).map
          (fun round => sumBytes (roundAcc round))).sum +
        contCount ((bytes.drop hd).drop
          ((bytes.drop hd).length / SIZE * SIZE))) = countByByte bytes
    rw [count_middle_eq _ (midB_dvd bytes hd)]
    have hcc : contCount (bytes.take hd) +
        contCount ((bytes.drop hd).take ((bytes.drop hd).length / SIZE * SIZE)) +
        contCount ((bytes.drop hd).drop ((bytes.drop hd).length / SIZE * SIZE)) =
        contCount bytes := by
      conv_rhs => rw [bytes_split bytes hd]
      rw [contCount_append, contCount_append]
    rw [hcc, ← countByByte_eq_sub]

/-! ## Byte-by-byte scan lemmas -/

theorem naiveScan_eq_byteScan (charIdx : Nat) (xs : List Nat) :
    ∀ cc bc, naiveScan charIdx xs cc bc = (byteScan charIdx xs cc bc).2 := by
  induction xs with
  | nil => intro cc bc; rfl
  | cons b rest ih =>
    intro cc bc
    simp only [naiveScan, byteScan]
    split <;> simp [ih]

theorem byteScan_nobreak (charIdx : Nat) (xs : List Nat) :
    ∀ cc bc, cc + countByByte xs ≤ charIdx →
    byteScan charIdx xs cc bc = (cc + countByByte xs, bc + xs.length) := by
  induction xs with
  | nil => intro cc bc _; simp [byteScan, countByByte]
  | cons b rest ih =>
    intro cc bc h
    have hx : countByByte (b :: rest) = ncbyte b + countByByte rest := by
      simp [countByByte]
    rw [hx] at h
    simp only [byteScan]
    rw [if_neg (by omega)]
    rw [ih (cc + ncbyte b) (bc + 1) (by omega), hx]
    simp only [List.length_cons, Prod.mk.injEq]
    omega

theorem byteScan_append_le (charIdx : Nat) (xs : List Nat) :
    ∀ (ys : List Nat) cc bc, cc + countByByte xs ≤ charIdx →
    byteScan charIdx (xs ++ ys) cc bc =
      byteScan charIdx ys (cc + countByByte xs) (bc + xs.length) := by
  induction xs with
  | nil => intro ys cc bc _; simp [countByByte]
  | cons b rest ih =>
    intro ys cc bc h
    have hx : countByByte (b :: rest) = ncbyte b + countByByte rest := by
      simp [countByByte]
    rw [hx] at h
    simp only [List.cons_append, byteScan]
    rw [if_neg (by omega)]
    show byteScan charIdx (rest ++ ys) (cc + ncbyte b) (bc + 1) = _
    rw [ih ys (cc + ncbyte b) (bc + 1) (by omega), hx]
    simp only [List.length_cons]
    congr 1 <;> omega

theorem byteScan_overrun (charIdx : Nat) (xs : List Nat) :
    ∀ cc bc, charIdx < cc → (byteScan charIdx xs cc bc).2 = bc := by
  induction xs with
  | nil => intro cc bc _; rfl
  | cons b rest ih =>
    intro cc bc h
    simp only [byteScan]
    rw [if_pos (by unfold ncbyte; split <;> omega)]

theorem byteScan_append_gt (charIdx : Nat) (xs : List Nat) :
    ∀ (ys : List Nat) cc bc, charIdx < cc + countByByte xs →
    (byteScan charIdx (xs ++ ys) cc bc).2 = (byteScan charIdx xs cc bc).2 := by
  induction xs with
  | nil =>
    intro ys cc bc h
    simp only [countByByte, List.map_nil, List.sum_nil, Nat.add_zero] at h
    simp only [List.nil_append, byteScan]
    exact byteScan_overrun charIdx ys cc bc h
  | cons b rest ih =>
    intro ys cc bc h
    have hx : countByByte (b :: rest) = ncbyte b + countByByte rest := by
      simp [countByByte]
    rw [hx] at h
    simp only [List.cons_append, byteScan]
    split
    · rfl
    · exact ih ys (cc + ncbyte b) (bc + 1) (by omega)

theorem byteScan_break_gt (charIdx : Nat) (xs : List Nat) :
    ∀ cc bc, charIdx < cc + countByByte xs →
    charIdx < (byteScan charIdx xs cc bc).1 := by
  induction xs with
  | nil =>
    intro cc bc h
    simpa [byteScan, countByByte] using h
  | cons b rest ih =>
    intro cc bc h
    have hx : countByByte (b :: rest) = ncbyte b + countByByte rest := by
      simp [countByByte]
    rw [hx] at h
    simp only [byteScan]
    split
    · simpa using (by assumption : charIdx < cc + ncbyte b)
    · exact ih (cc + ncbyte b) (bc + 1) (by omega)

/-- Where the scan can stop while still below the target: either it
consumed everything, or it stopped right before a non-continuation
byte. -/
theorem byteScan_stop_pos (charIdx : Nat) (xs : List Nat) :
    ∀ cc bc, cc ≤ charIdx →
    (byteScan charIdx xs cc bc).2 = bc + xs.length ∨
      ∃ i, i < xs.length ∧ (byteScan charIdx xs cc bc).2 = bc + i ∧
        isCont (xs.getD i 0) = false := by
  induction xs with
  | nil => intro cc bc _; left; rfl
  | cons b rest ih =>
    intro cc bc hcc
    simp only [byteScan]
    split
    · right
      refine ⟨0, by simp, by simp, ?_⟩
      rename_i hbr
      by_contra hc
      simp only [List.getD_cons_zero, Bool.not_eq_false] at hc
      have : ncbyte b = 0 := by simp [ncbyte, hc]
      omega
    · rename_i hbr
      rcases ih (cc + ncbyte b) (bc + 1) (by omega) with h | ⟨i, hi, heq, hcont⟩
      · left; rw [h]; simp; omega
      · right
        exact ⟨i + 1, by simp; omega, by rw [heq]; omega, by simpa using hcont⟩

/-! ## Chunk flatten lemmas -/

theorem flatten_length_chunks (n : Nat) (gs : List (List Nat))
    (h : ∀ c ∈ gs, c.length = n) : gs.flatten.length = n * gs.length := by
  induction gs with
  | nil => simp
  | cons g rest ih =>
    simp only [List.flatten_cons, List.length_append, List.length_cons]
    rw [h g (by simp), ih (fun c hc => h c (by simp [hc]))]
    ring

theorem take_flatten_chunks (n : Nat) (gs : List (List Nat))
    (h : ∀ c ∈ gs, c.length = n) :
    ∀ k, (gs.take k).flatten = gs.flatten.take (n * k) := by
  induction gs with
  | nil => intro k; simp
  | cons g rest ih =>
    intro k
    cases k with
    | zero => simp
    | succ k' =>
      simp only [List.take_succ_cons, List.flatten_cons]
      have hg : g.length = n := h g (by simp)
      rw [Nat.mul_succ, Nat.add_comm (n * k') n, List.take_append_eq_append_take,
        List.take_of_length_le (by omega : g.length ≤ n + n * k')]
      have h2 : n + n * k' - g.length = n * k' := by omega
      rw [h2, ih (fun c hc => h c (by simp [hc])) k']

theorem drop_flatten_chunks (n : Nat) (gs : List (List Nat))
    (h : ∀ c ∈ gs, c.length = n) :
    ∀ k, (gs.drop k).flatten = gs.flatten.drop (n * k) := by
  induction gs with
  | nil => intro k; simp
  | cons g rest ih =>
    intro k
    cases k with
    | zero => simp
    | succ k' =>
      simp only [List.drop_succ_cons, List.flatten_cons]
      have hg : g.length = n := h g (by simp)
      rw [Nat.mul_succ, Nat.add_comm (n * k') n, List.drop_append_eq_append_drop,
        List.drop_eq_nil_of_le (by omega : g.length ≤ n + n * k')]
      have h2 : n + n * k' - g.length = n * k' := by omega
      rw [h2, ih (fun c hc => h c (by simp [hc])) k']
      simp

/-! ## Fast-skip and slow-phase specifications -/

/-- Full specification of the fast-skip phase: it consumes some prefix
of `k` chunks, adds exactly the uncounted characters of those chunks to
the char counter and their bytes to the byte counter, and — as long as
the entry budget satisfies `cc + MAX_ACC * mrl ≤ X` — the char counter
never climbs past `X`. -/
theorem fastSkip_spec :
    ∀ (fuel mrl : Nat) (chunks : List (List Nat)) (cc bc X : Nat),
    mrl ≤ fuel → (∀ c ∈ chunks, c.length = SIZE) →
    cc + MAX_ACC * mrl ≤ X →
    ∃ k, k ≤ chunks.length ∧
      fastSkip fuel mrl chunks cc bc =
        (chunks.drop k, cc + countByByte (chunks.take k).flatten,
          bc + SIZE * k) ∧
      cc + countByByte (chunks.take k).flatten ≤ X := by
  intro fuel
  induction fuel with
  | zero =>
    intro mrl chunks cc bc X hmrl hsz hX
    refine ⟨0, by omega, ?_, ?_⟩
    · simp [fastSkip, countByByte]
    · simp only [List.take_zero, List.flatten_nil]
      have : countByByte [] = 0 := rfl
      rw [this]; omega
  | succ fuel ih =>
    intro mrl chunks cc bc X hmrl hsz hX
    by_cases hstop : mrl = 0 ∨ chunks = []
    · refine ⟨0, by omega, ?_, ?_⟩
      · simp only [fastSkip, if_pos hstop]
        simp [countByByte]
      · have : countByByte (List.take 0 chunks).flatten = 0 := by
          simp [countByByte]
        rw [this]
        rcases hstop with h | h
        · omega
        · omega
    · push_neg at hstop
      obtain ⟨hmrl0, hne⟩ := hstop
      have hclen : 1 ≤ chunks.length := by
        cases chunks with
        | nil => simp at hne
        | cons c cs => simp
      set roundLen := min MAX_ACC (min mrl chunks.length) with hrl
      have hrl1 : 1 ≤ roundLen := by
        have : MAX_ACC = 255 := rfl
        omega
      have hrlm : roundLen ≤ mrl := by omega
      have hrlc : roundLen ≤ chunks.length := by omega
      have hrlM : roundLen ≤ MAX_ACC := by omega
      have hroundsz : ∀ c ∈ chunks.take roundLen, c.length = SIZE :=
        fun c hc => hsz c (List.mem_of_mem_take hc)
      have hroundlen : (chunks.take roundLen).length = roundLen := by
        simp only [List.length_take]; omega
      have hsum : sumBytes (roundAcc (chunks.take roundLen)) =
          contCount (chunks.take roundLen).flatten :=
        (roundAcc_spec _ (by omega) hroundsz).2.2
      have hflatlen : (chunks.take roundLen).flatten.length = SIZE * roundLen := by
        rw [flatten_length_chunks SIZE _ hroundsz, hroundlen]
      have hgain : SIZE * roundLen - sumBytes (roundAcc (chunks.take roundLen)) =
          countByByte (chunks.take roundLen).flatten := by
        rw [hsum, countByByte_eq_sub, hflatlen]
      have hcontle : contCount (chunks.take roundLen).flatten ≤ SIZE * roundLen := by
        have := contCount_le_length (chunks.take roundLen).flatten
        omega
      have hgainle : countByByte (chunks.take roundLen).flatten ≤ SIZE * roundLen := by
        have := countByByte_add_contCount (chunks.take roundLen).flatten
        omega
      -- the budget invariant survives the round
      have hXnext : cc + countByByte (chunks.take roundLen).flatten +
          MAX_ACC * (mrl - roundLen) ≤ X := by
        have hM : MAX_ACC = 255 := rfl
        have hS : SIZE = 16 := rfl
        rw [hM] at hX ⊢
        rw [hS] at hgainle
        omega
      obtain ⟨k', hk'le, hk'eq, hk'X⟩ := ih (mrl - roundLen)
        (chunks.drop roundLen)
        (cc + countByByte (chunks.take roundLen).flatten)
        (bc + SIZE * roundLen) X (by omega)
        (fun c hc => hsz c (List.mem_of_mem_drop hc)) hXnext
      refine ⟨roundLen + k', ?_, ?_, ?_⟩
      · have := hk'le
        simp only [List.length_drop] at this
        omega
      · show fastSkip (fuel + 1) mrl chunks cc bc = _
        have hstep : fastSkip (fuel + 1) mrl chunks cc bc =
            fastSkip fuel (mrl - roundLen) (chunks.drop roundLen)
              (cc + (SIZE * roundLen - sumBytes (roundAcc (chunks.take roundLen))))
              (bc + SIZE * roundLen) := by
          simp only [fastSkip]
          rw [if_neg (by push_neg; exact ⟨hmrl0, hne⟩)]
        rw [hstep, hgain, hk'eq]
        have htake : (chunks.drop roundLen).take k' = ((chunks.take (roundLen + k')).drop roundLen) := by
          rw [List.drop_take]
          congr 1
          omega
        have htake2 : chunks.take (roundLen + k') =
            chunks.take roundLen ++ (chunks.drop roundLen).take k' := by
          rw [← List.take_add]
        have hcb : countByByte (chunks.take (roundLen + k')).flatten =
            countByByte (chunks.take roundLen).flatten +
            countByByte ((chunks.drop roundLen).take k').flatten := by
          rw [htake2, List.flatten_append, countByByte_append]
        refine Prod.ext ?_ (Prod.ext ?_ ?_) <;> simp only
        · rw [List.drop_drop]
        · rw [hcb]; omega
        · rw [Nat.mul_add]; omega
      · have htake2 : chunks.take (roundLen + k') =
            chunks.take roundLen ++ (chunks.drop roundLen).take k' := by
          rw [← List.take_add]
        rw [htake2, List.flatten_append, countByByte_append]
        omega

/-- Specification of the slow per-chunk phase: it consumes a prefix of
`k` chunks whose characters it adds exactly to the counters, and it
never lets the char counter climb past `charIdx` once it is below it. -/
theorem slowScan_spec (charIdx : Nat) :
    ∀ (chunks : List (List Nat)) (cc bc : Nat),
    (∀ c ∈ chunks, c.length = SIZE) →
    ∃ k, k ≤ chunks.length ∧
      slowScan charIdx chunks cc bc =
        (cc + countByByte (chunks.take k).flatten, bc + SIZE * k) ∧
      (cc ≤ charIdx → cc + countByByte (chunks.take k).flatten ≤ charIdx) := by
  intro chunks
  induction chunks with
  | nil =>
    intro cc bc _
    refine ⟨0, by simp, ?_, ?_⟩
    · simp [slowScan, countByByte]
    · intro h; simpa [countByByte] using h
  | cons c rest ih =>
    intro cc bc hsz
    have hc16 : c.length = SIZE := hsz c (by simp)
    have hsum : sumBytes (contMask c) = contCount c :=
      sum_contMask c (by omega)
    have hncc : cc + SIZE - sumBytes (contMask c) = cc + countByByte c := by
      rw [hsum, countByByte_eq_sub]
      have := contCount_le_length c
      omega
    by_cases hbr : charIdx ≤ cc + SIZE - sumBytes (contMask c)
    · refine ⟨0, by simp, ?_, ?_⟩
      · simp only [slowScan, if_pos hbr]
        simp [countByByte]
      · intro h
        simp [countByByte]
        omega
    · obtain ⟨k', hk'le, hk'eq, hk'X⟩ :=
        ih (cc + SIZE - sumBytes (contMask c)) (bc + SIZE)
          (fun c' hc' => hsz c' (by simp [hc']))
      refine ⟨k' + 1, by simp; omega, ?_, ?_⟩
      · simp only [slowScan, if_neg hbr]
        rw [hk'eq, hncc]
        simp only [List.take_succ_cons, List.flatten_cons, countByByte_append]
        refine Prod.ext ?_ ?_ <;> simp only
        · omega
        · rw [Nat.mul_add]; omega
      · intro hle
        rw [hncc] at hk'X hbr
        simp only [List.take_succ_cons, List.flatten_cons, countByByte_append]
        have := hk'X (by omega)
        omega

/-- If the char counter already exceeds the target, the slow phase
consumes nothing. -/
theorem slowScan_overrun (charIdx : Nat) (chunks : List (List Nat)) :
    ∀ cc bc, charIdx < cc → slowScan charIdx chunks cc bc = (cc, bc) := by
  cases chunks with
  | nil => intro cc bc _; rfl
  | cons c rest =>
    intro cc bc h
    have hs := sum_contMask_le c
    simp only [slowScan]
    rw [if_pos (by omega)]

theorem fastSkip_zero (mrl : Nat) (chunks : List (List Nat)) (cc bc : Nat) :
    fastSkip 0 mrl chunks cc bc = (chunks, cc, bc) := rfl

/-! ## The chunked seek engine refines the naive per-byte seek -/

/-- Main refinement: for every byte sequence (well-formed or not), every
alignment split and every target char index, the chunked
`to_byte_idx_impl` returns exactly the byte offset of the naive
per-byte reference scan. -/
theorem to_byte_idx_impl_eq_naive (bytes : List Nat) (hd charIdx : Nat) :
    to_byte_idx_impl bytes hd charIdx = to_byte_idx_naive bytes charIdx := by
  simp only [to_byte_idx_impl, to_byte_idx_naive]
  rw [naiveScan_eq_byteScan]
  by_cases hcase : countByByte (bytes.take hd) ≤ charIdx
  case neg =>
    -- the head scan overshoots: every later phase is a no-op
    push_neg at hcase
    have hA : charIdx < (byteScan charIdx (bytes.take hd) 0 0).1 :=
      byteScan_break_gt charIdx _ 0 0 (by omega)
    have hmrl : (charIdx - (byteScan charIdx (bytes.take hd) 0 0).1) / MAX_ACC = 0 := by
      have : charIdx - (byteScan charIdx (bytes.take hd) 0 0).1 = 0 := by omega
      rw [this]
      rfl
    rw [hmrl, fastSkip_zero]
    simp only
    rw [slowScan_overrun charIdx _ _ _ hA]
    simp only
    rw [byteScan_overrun charIdx _ _ _ hA]
    conv_rhs => rw [← List.take_append_drop hd bytes]
    rw [byteScan_append_gt charIdx _ _ 0 0 (by omega)]
  case pos =>
    have hst0 : byteScan charIdx (bytes.take hd) 0 0 =
        (countByByte (bytes.take hd), (bytes.take hd).length) := by
      have := byteScan_nobreak charIdx (bytes.take hd) 0 0 (by omega)
      simpa using this
    rw [hst0]
    simp only
    -- names for the regions
    have hchunks := mid_chunk_lengths bytes hd
    set midB := (bytes.drop hd).take ((bytes.drop hd).length / SIZE * SIZE)
      with hmidB
    set mid := groupsOf SIZE midB with hmid
    have hmidflat : mid.flatten = midB :=
      groupsOf_flatten SIZE (by norm_num [SIZE]) midB
    have hmidlen : midB.length = SIZE * mid.length := by
      rw [← hmidflat]
      exact flatten_length_chunks SIZE mid hchunks
    -- fast-skip phase
    have hdivle : countByByte (bytes.take hd) + MAX_ACC *
        ((charIdx - countByByte (bytes.take hd)) / MAX_ACC) ≤ charIdx := by
      have h1 : MAX_ACC * ((charIdx - countByByte (bytes.take hd)) / MAX_ACC) ≤
          charIdx - countByByte (bytes.take hd) := Nat.mul_div_le _ _
      omega
    obtain ⟨k1, hk1le, heq1, hX1⟩ := fastSkip_spec
      ((charIdx - countByByte (bytes.take hd)) / MAX_ACC)
      ((charIdx - countByByte (bytes.take hd)) / MAX_ACC)
      mid (countByByte (bytes.take hd)) (bytes.take hd).length charIdx
      le_rfl hchunks hdivle
    rw [heq1]
    simp only
    -- slow phase
    obtain ⟨k2, hk2le, heq2, hX2⟩ := slowScan_spec charIdx (mid.drop k1)
      (countByByte (bytes.take hd) + countByByte (mid.take k1).flatten)
      ((bytes.take hd).length + SIZE * k1)
      (fun c hc => hchunks c (List.mem_of_mem_drop hc))
    rw [heq2]
    simp only
    have hX2' := hX2 hX1
    -- flatten identities
    have hflat1 : (mid.take k1).flatten = midB.take (SIZE * k1) := by
      rw [take_flatten_chunks SIZE mid hchunks k1, hmidflat]
    have hdropchunks : ∀ c ∈ mid.drop k1, c.length = SIZE :=
      fun c hc => hchunks c (List.mem_of_mem_drop hc)
    have hflat2 : ((mid.drop k1).take k2).flatten =
        (midB.drop (SIZE * k1)).take (SIZE * k2) := by
      rw [take_flatten_chunks SIZE (mid.drop k1) hdropchunks k2,
        drop_flatten_chunks SIZE mid hchunks k1, hmidflat]
    have hk12 : SIZE * k1 + SIZE * k2 ≤ midB.length := by
      have : k2 ≤ mid.length - k1 := by
        have := hk2le
        simpa using this
      have hS : SIZE = 16 := rfl
      rw [hmidlen, hS] at *
      omega
    -- the combined middle consumption
    have hmidtake : midB.take (SIZE * k1) ++ (midB.drop (SIZE * k1)).take (SIZE * k2) =
        midB.take (SIZE * k1 + SIZE * k2) := by
      rw [List.take_add]
    -- byte counter value and its prefix characterization
    set bc2 := (bytes.take hd).length + SIZE * k1 + SIZE * k2 with hbc2
    have hsplit := bytes_split bytes hd
    rw [← hmidB] at hsplit
    have hbyteslen : bytes.length = (bytes.take hd).length + midB.length +
        ((bytes.drop hd).drop ((bytes.drop hd).length / SIZE * SIZE)).length := by
      conv_lhs => rw [hsplit]
      simp only [List.length_append]
    have hbc2len : bc2 ≤ bytes.length := by
      rw [hbc2, hbyteslen]
      omega
    have htakebc2 : bytes.take bc2 = bytes.take hd ++ midB.take (SIZE * k1 + SIZE * k2) := by
      conv_lhs => rw [hsplit]
      rw [List.append_assoc, List.take_append_eq_append_take]
      have h1 : (bytes.take hd).take bc2 = bytes.take hd :=
        List.take_of_length_le (by rw [hbc2]; omega)
      rw [h1]
      congr 1
      rw [List.take_append_eq_append_take]
      have h2 : bc2 - (bytes.take hd).length = SIZE * k1 + SIZE * k2 := by
        rw [hbc2]; omega
      rw [h2]
      have h3 : midB.take (SIZE * k1 + SIZE * k2) =
          midB.take (SIZE * k1 + SIZE * k2) ++ [] := by simp
      conv_rhs => rw [h3]
      congr 1
      have h4 : SIZE * k1 + SIZE * k2 - midB.length = 0 := by omega
      rw [h4]
      rfl
    have hcc2 : countByByte (bytes.take bc2) =
        countByByte (bytes.take hd) + countByByte (mid.take k1).flatten +
          countByByte ((mid.drop k1).take k2).flatten := by
      rw [htakebc2, countByByte_append, hflat1, hflat2, ← hmidtake,
        countByByte_append]
      omega
    -- close: both sides are the tail scan from the common state
    have hfinal : countByByte (bytes.take bc2) ≤ charIdx := by
      rw [hcc2]; omega
    conv_rhs => rw [← List.take_append_drop bc2 bytes]
    rw [byteScan_append_le charIdx _ _ 0 0 (by omega)]
    rw [List.length_take_of_le hbc2len]
    have harg1 : 0 + countByByte (bytes.take bc2) =
        countByByte (bytes.take hd) + countByByte (mid.take k1).flatten +
          countByByte ((mid.drop k1).take k2).flatten := by
      rw [hcc2]; omega
    rw [harg1]
    have harg2 : (0 : Nat) + bc2 = (bytes.take hd).length + SIZE * k1 + SIZE * k2 := by
      rw [hbc2]; omega
    rw [harg2]

/-! ## UTF-8 encoding facts -/

theorem isCont_below_0x80 : ∀ x : Nat, x < 0x80 → isCont x = false := by
  intro x hx
  simp only [isCont, beq_eq_false_iff_ne, ne_eq]
  intro h
  have : x &&& 0xC0 ≤ x := Nat.and_le_left
  omega

theorem isCont_lead2 : ∀ x : Nat, x < 0x40 → isCont (0xC0 ||| x) = false := by
  decide

theorem isCont_lead3 : ∀ x : Nat, x < 0x10 → isCont (0xE0 ||| x) = false := by
  decide

theorem isCont_lead4 : ∀ x : Nat, x < 0x8 → isCont (0xF0 ||| x) = false := by
  decide

theorem isCont_contbyte : ∀ x : Nat, x < 0x40 → isCont (0x80 ||| x) = true := by
  decide

theorem and3F_lt (x : Nat) : x &&& 0x3F < 0x40 := by
  have : x &&& 0x3F ≤ 0x3F := Nat.and_le_right
  omega

theorem shiftr6_lt {c : Nat} (h : c < 0x800) : c >>> 6 < 0x40 := by
  rw [Nat.shiftRight_eq_div_pow]
  refine (Nat.div_lt_iff_lt_mul (by norm_num)).mpr ?_
  have h2 : (0x40 : Nat) * 2 ^ 6 = 4096 := by norm_num
  omega

theorem shiftr12_lt {c : Nat} (h : c < 0x10000) : c >>> 12 < 0x10 := by
  rw [Nat.shiftRight_eq_div_pow]
  refine (Nat.div_lt_iff_lt_mul (by norm_num)).mpr ?_
  have h2 : (0x10 : Nat) * 2 ^ 12 = 65536 := by norm_num
  omega

theorem shiftr18_lt {c : Nat} (h : c < 0x110000) : c >>> 18 < 0x8 := by
  rw [Nat.shiftRight_eq_div_pow]
  refine (Nat.div_lt_iff_lt_mul (by norm_num)).mpr ?_
  have h2 : (0x8 : Nat) * 2 ^ 18 = 2097152 := by norm_num
  omega

theorem encodeChar_length_pos (c : Nat) : 1 ≤ (encodeChar c).length := by
  unfold encodeChar
  split
  · simp
  · split
    · simp
    · split <;> simp

/-- The first byte of a UTF-8 encoding is never a continuation byte. -/
theorem encodeChar_head (c : Nat) (h : IsScalar c) :
    isCont ((encodeChar c).getD 0 0) = false := by
  obtain ⟨hlt, -⟩ := h
  unfold encodeChar
  split
  · rename_i h1
    simpa using isCont_below_0x80 c h1
  · split
    · rename_i h1 h2
      simpa using isCont_lead2 (c >>> 6) (shiftr6_lt h2)
    · split
      · rename_i h1 h2 h3
        simpa using isCont_lead3 (c >>> 12) (shiftr12_lt h3)
      · simpa using isCont_lead4 (c >>> 18) (shiftr18_lt hlt)

/-- Every byte after the first in a UTF-8 encoding is a continuation
byte. -/
theorem encodeChar_tail (c : Nat) (d : Nat) (h1 : 1 ≤ d)
    (h2 : d < (encodeChar c).length) :
    isCont ((encodeChar c).getD d 0) = true := by
  by_cases hc1 : c < 0x80
  · simp only [encodeChar, if_pos hc1] at h2 ⊢
    simp at h2
    omega
  · by_cases hc2 : c < 0x800
    · simp only [encodeChar, if_neg hc1, if_pos hc2] at h2 ⊢
      simp at h2
      have hd1 : d = 1 := by omega
      subst hd1
      simpa using isCont_contbyte (c &&& 0x3F) (and3F_lt c)
    · by_cases hc3 : c < 0x10000
      · simp only [encodeChar, if_neg hc1, if_neg hc2, if_pos hc3] at h2 ⊢
        simp at h2
        rcases d with _ | _ | _ | d
        · omega
        · simpa using isCont_contbyte ((c >>> 6) &&& 0x3F) (and3F_lt _)
        · simpa using isCont_contbyte (c &&& 0x3F) (and3F_lt _)
        · omega
      · simp only [encodeChar, if_neg hc1, if_neg hc2, if_neg hc3] at h2 ⊢
        simp at h2
        rcases d with _ | _ | _ | _ | d
        · omega
        · simpa using isCont_contbyte ((c >>> 12) &&& 0x3F) (and3F_lt _)
        · simpa using isCont_contbyte ((c >>> 6) &&& 0x3F) (and3F_lt _)
        · simpa using isCont_contbyte (c &&& 0x3F) (and3F_lt _)
        · omega

/-- Each character's encoding contributes exactly one to the char
count. -/
theorem countByByte_encodeChar (c : Nat) (h : IsScalar c) :
    countByByte (encodeChar c) = 1 := by
  obtain ⟨hlt, -⟩ := h
  unfold encodeChar countByByte
  split
  · rename_i h1
    simp [ncbyte, isCont_below_0x80 c h1]
  · split
    · rename_i h1 h2
      simp [ncbyte, isCont_lead2 (c >>> 6) (shiftr6_lt h2),
        isCont_contbyte (c &&& 0x3F) (and3F_lt c)]
    · split
      · rename_i h1 h2 h3
        simp [ncbyte, isCont_lead3 (c >>> 12) (shiftr12_lt h3),
          isCont_contbyte ((c >>> 6) &&& 0x3F) (and3F_lt _),
          isCont_contbyte (c &&& 0x3F) (and3F_lt _)]
      · simp [ncbyte, isCont_lead4 (c >>> 18) (shiftr18_lt hlt),
          isCont_contbyte ((c >>> 12) &&& 0x3F) (and3F_lt _),
          isCont_contbyte ((c >>> 6) &&& 0x3F) (and3F_lt _),
          isCont_contbyte (c &&& 0x3F) (and3F_lt _)]

/-- A valid string has exactly as many non-continuation bytes as
characters. -/
theorem countByByte_encoding (cs : List Nat) (h : ∀ c ∈ cs, IsScalar c) :
    countByByte (cs.map encodeChar).flatten = cs.length := by
  induction cs with
  | nil => rfl
  | cons c rest ih =>
    simp only [List.map_cons, List.flatten_cons, countByByte_append,
      List.length_cons]
    rw [countByByte_encodeChar c (h c (by simp)),
      ih (fun c' hc' => h c' (by simp [hc']))]
    omega

/-! ## Offsets of characters inside a valid string -/

theorem offsetOf_zero (cs : List Nat) : offsetOf cs 0 = 0 := by
  cases cs <;> rfl

theorem offsetOf_le_length (cs : List Nat) :
    ∀ k, offsetOf cs k ≤ (cs.map encodeChar).flatten.length := by
  induction cs with
  | nil => intro k; cases k <;> simp [offsetOf]
  | cons c rest ih =>
    intro k
    cases k with
    | zero => simp [offsetOf]
    | succ k' =>
      simp only [offsetOf, List.map_cons, List.flatten_cons, List.length_append]
      have := ih k'
      omega

theorem offsetOf_length (cs : List Nat) :
    offsetOf cs cs.length = (cs.map encodeChar).flatten.length := by
  induction cs with
  | nil => rfl
  | cons c rest ih =>
    simp only [List.length_cons, offsetOf, List.map_cons, List.flatten_cons,
      List.length_append]
    omega

theorem offsetOf_lt_succ (cs : List Nat) :
    ∀ k, k < cs.length → offsetOf cs k < offsetOf cs (k + 1) := by
  induction cs with
  | nil => intro k hk; simp at hk
  | cons c rest ih =>
    intro k hk
    cases k with
    | zero =>
      simp only [offsetOf, offsetOf_zero]
      have := encodeChar_length_pos c
      omega
    | succ k' =>
      simp only [offsetOf]
      have := ih k' (by simpa using hk)
      omega

theorem offsetOf_mono (cs : List Nat) :
    ∀ j k, j ≤ k → offsetOf cs j ≤ offsetOf cs k := by
  induction cs with
  | nil =>
    intro j k _
    cases j <;> cases k <;> simp [offsetOf]
  | cons c rest ih =>
    intro j k hjk
    cases j with
    | zero => simp [offsetOf_zero]
    | succ j' =>
      cases k with
      | zero => omega
      | succ k' =>
        simp only [offsetOf]
        have := ih j' k' (by omega)
        omega

theorem take_offsetOf (cs : List Nat) :
    ∀ k, ((cs.map encodeChar).flatten).take (offsetOf cs k) =
      ((cs.take k).map encodeChar).flatten := by
  induction cs with
  | nil => intro k; cases k <;> simp [offsetOf]
  | cons c rest ih =>
    intro k
    cases k with
    | zero => simp [offsetOf_zero]
    | succ k' =>
      simp only [offsetOf, List.map_cons, List.flatten_cons,
        List.take_succ_cons]
      rw [Nat.add_comm, List.take_append_eq_append_take,
        List.take_of_length_le (by omega : (encodeChar c).length ≤
          offsetOf rest k' + (encodeChar c).length)]
      have h2 : offsetOf rest k' + (encodeChar c).length - (encodeChar c).length =
          offsetOf rest k' := by omega
      rw [h2, ih k']

theorem drop_offsetOf (cs : List Nat) :
    ∀ k, ((cs.map encodeChar).flatten).drop (offsetOf cs k) =
      ((cs.drop k).map encodeChar).flatten := by
  induction cs with
  | nil => intro k; cases k <;> simp [offsetOf]
  | cons c rest ih =>
    intro k
    cases k with
    | zero => simp [offsetOf_zero]
    | succ k' =>
      simp only [offsetOf, List.map_cons, List.flatten_cons,
        List.drop_succ_cons]
      rw [Nat.add_comm, List.drop_append_eq_append_drop,
        List.drop_eq_nil_of_le (by omega : (encodeChar c).length ≤
          offsetOf rest k' + (encodeChar c).length)]
      have h2 : offsetOf rest k' + (encodeChar c).length - (encodeChar c).length =
          offsetOf rest k' := by omega
      rw [h2, ih k']
      simp

/-- The width equation: character `k + 1` starts one encoding after
character `k`. -/
theorem offsetOf_succ_cons (c : Nat) (rest : List Nat) (k : Nat) :
    offsetOf (c :: rest) (k + 1) = (encodeChar c).length + offsetOf rest k := rfl

/-- In the flat encoding, the byte at a character start is not a
continuation byte. -/
theorem flat_noncont_at_offset (cs : List Nat) :
    ∀ k, (∀ c ∈ cs, IsScalar c) → k < cs.length →
    isCont (((cs.map encodeChar).flatten).getD (offsetOf cs k) 0) = false := by
  induction cs with
  | nil => intro k _ hk; simp at hk
  | cons c rest ih =>
    intro k hsc hk
    cases k with
    | zero =>
      rw [offsetOf_zero]
      simp only [List.map_cons, List.flatten_cons]
      have hpos := encodeChar_length_pos c
      rw [List.getD_append _ _ _ _ (by omega)]
      exact encodeChar_head c (hsc c (by simp))
    | succ k' =>
      rw [offsetOf_succ_cons]
      simp only [List.map_cons, List.flatten_cons]
      rw [Nat.add_comm, List.getD_append_right _ _ _ _ (by omega)]
      have h2 : offsetOf rest k' + (encodeChar c).length - (encodeChar c).length =
          offsetOf rest k' := by omega
      rw [h2]
      exact ih k' (fun c' hc' => hsc c' (by simp [hc'])) (by simpa using hk)

/-- In the flat encoding, every byte strictly inside one character's
encoding is a continuation byte. -/
theorem flat_cont_inside (cs : List Nat) :
    ∀ k t, (∀ c ∈ cs, IsScalar c) → k < cs.length →
    offsetOf cs k < t → t < offsetOf cs (k + 1) →
    isCont (((cs.map encodeChar).flatten).getD t 0) = true := by
  induction cs with
  | nil => intro k t _ hk _ _; simp at hk
  | cons c rest ih =>
    intro k t hsc hk h1 h2
    cases k with
    | zero =>
      rw [offsetOf_zero] at h1
      rw [offsetOf_succ_cons, offsetOf_zero, Nat.add_zero] at h2
      simp only [List.map_cons, List.flatten_cons]
      rw [List.getD_append _ _ _ _ (by omega)]
      exact encodeChar_tail c t (by omega) h2
    | succ k' =>
      rw [offsetOf_succ_cons] at h1
      rw [offsetOf_succ_cons] at h2
      simp only [List.map_cons, List.flatten_cons]
      rw [List.getD_append_right _ _ _ _ (by omega)]
      exact ih k' (t - (encodeChar c).length)
        (fun c' hc' => hsc c' (by simp [hc'])) (by simpa using hk)
        (by omega) (by omega)

/-- In the flat encoding, a non-continuation byte position is a
character start. -/
theorem flat_noncont_is_offset (cs : List Nat) :
    ∀ t, (∀ c ∈ cs, IsScalar c) → t < (cs.map encodeChar).flatten.length →
    isCont (((cs.map encodeChar).flatten).getD t 0) = false →
    ∃ k, k < cs.length ∧ t = offsetOf cs k := by
  induction cs with
  | nil => intro t _ ht _; simp at ht
  | cons c rest ih =>
    intro t hsc ht hnc
    simp only [List.map_cons, List.flatten_cons] at ht hnc
    by_cases h0 : t < (encodeChar c).length
    · rcases Nat.eq_zero_or_pos t with h | h
      · exact ⟨0, by simp, by rw [h, offsetOf_zero]⟩
      · exfalso
        rw [List.getD_append _ _ _ _ h0] at hnc
        have := encodeChar_tail c t (by omega) h0
        rw [this] at hnc
        cases hnc
    · push_neg at h0
      rw [List.getD_append_right _ _ _ _ h0] at hnc
      have hlen : t - (encodeChar c).length < (rest.map encodeChar).flatten.length := by
        simp only [List.length_append] at ht
        omega
      obtain ⟨k', hk', hoff⟩ := ih (t - (encodeChar c).length)
        (fun c' hc' => hsc c' (by simp [hc'])) hlen hnc
      refine ⟨k' + 1, by simpa using hk', ?_⟩
      rw [offsetOf_succ_cons]
      omega

/-- The byte at a character start of a valid string is not a
continuation byte. -/
theorem contAt_offsetOf (bytes cs : List Nat) (hv : ValidUtf8 bytes cs) :
    ∀ k, k < cs.length → contAt bytes (offsetOf cs k) = false := by
  intro k hk
  obtain ⟨hsc, hb⟩ := hv
  unfold contAt
  rw [hb]
  exact flat_noncont_at_offset cs k hsc hk

/-- Every byte strictly inside a character's encoding in a valid string
is a continuation byte. -/
theorem contAt_inside (bytes cs : List Nat) (hv : ValidUtf8 bytes cs) :
    ∀ k t, k < cs.length → offsetOf cs k < t → t < offsetOf cs (k + 1) →
    contAt bytes t = true := by
  intro k t hk h1 h2
  obtain ⟨hsc, hb⟩ := hv
  unfold contAt
  rw [hb]
  exact flat_cont_inside cs k t hsc hk h1 h2

/-- Past the end (and on the empty string) the probed byte defaults to
`0`, which is not a continuation byte. -/
theorem contAt_past_end (bytes : List Nat) (i : Nat)
    (h : bytes.length ≤ i) : contAt bytes i = false := by
  unfold contAt
  rw [List.getD_eq_default _ _ h]
  rfl

/-- A valid string never starts with a continuation byte. -/
theorem contAt_zero_valid (bytes cs : List Nat) (hv : ValidUtf8 bytes cs) :
    contAt bytes 0 = false := by
  cases cs with
  | nil =>
    have : bytes = [] := by rw [hv.2]; rfl
    subst this
    exact contAt_past_end [] 0 (by simp)
  | cons c rest =>
    have := contAt_offsetOf bytes (c :: rest) hv 0 (by simp)
    rwa [offsetOf_zero] at this

/-! ## Backward snap and `from_byte_idx` -/

theorem snapBack_noncont (bytes : List Nat) (i : Nat)
    (h : contAt bytes i = false) : snapBack bytes i = some i := by
  cases i with
  | zero => simp [snapBack, h]
  | succ i' => simp [snapBack, h]

/-- Full characterization of the backward walk when the first byte is
not a continuation byte: it lands on the nearest non-continuation
position at or before the start index, every skipped position being a
continuation byte. -/
theorem snapBack_char (bytes : List Nat) (h0 : contAt bytes 0 = false) :
    ∀ i, ∃ j, snapBack bytes i = some j ∧ j ≤ i ∧ contAt bytes j = false ∧
      ∀ t, j < t → t ≤ i → contAt bytes t = true := by
  intro i
  induction i with
  | zero => exact ⟨0, by simp [snapBack, h0], le_rfl, h0, fun t h1 h2 => by omega⟩
  | succ i' ih =>
    by_cases hc : contAt bytes (i' + 1) = true
    · obtain ⟨j, heq, hle, hnc, hall⟩ := ih
      refine ⟨j, ?_, by omega, hnc, ?_⟩
      · simp [snapBack, hc, heq]
      · intro t h1 h2
        rcases Nat.lt_or_ge t (i' + 1) with h | h
        · exact hall t h1 (by omega)
        · have : t = i' + 1 := by omega
          subst this
          exact hc
    · simp only [Bool.not_eq_true] at hc
      exact ⟨i' + 1, by simp [snapBack, hc], le_rfl, hc,
        fun t h1 h2 => by omega⟩

theorem take_min_length (bytes : List Nat) (j : Nat) :
    bytes.take (min j bytes.length) = bytes.take j := by
  rcases Nat.le_total j bytes.length with h | h
  · rw [Nat.min_eq_left h]
  · rw [Nat.min_eq_right h, List.take_of_length_le h,
      List.take_of_length_le (by omega)]

/-- What `from_byte_idx` returns when the snap succeeds. -/
theorem from_byte_idx_eq_of_snap (bytes : List Nat) (byteIdx hd j : Nat)
    (h : snapBack bytes byteIdx = some j) :
    from_byte_idx bytes byteIdx hd = some (countByByte (bytes.take j)) := by
  unfold from_byte_idx
  rw [h]
  simp only [Option.map]
  congr 1
  rw [take_min_length, count_impl_eq]

/-- Counting the prefix up to a character-start boundary yields the
character index. -/
theorem countByByte_take_offsetOf (bytes cs : List Nat)
    (hv : ValidUtf8 bytes cs) :
    ∀ k, k ≤ cs.length → countByByte (bytes.take (offsetOf cs k)) = k := by
  intro k hk
  obtain ⟨hsc, hb⟩ := hv
  rw [hb, take_offsetOf cs k,
    countByByte_encoding _ (fun c hc => hsc c (List.mem_of_mem_take hc))]
  simp only [List.length_take]
  omega

theorem offsetOf_contAt_le (bytes cs : List Nat) (hv : ValidUtf8 bytes cs) :
    ∀ k, k ≤ cs.length → contAt bytes (offsetOf cs k) = false := by
  intro k hk
  rcases Nat.lt_or_ge k cs.length with h | h
  · exact contAt_offsetOf bytes cs hv k h
  · have hkk : k = cs.length := by omega
    subst hkk
    apply contAt_past_end
    rw [hv.2, offsetOf_length]

/-- `from_byte_idx` on a byte inside character `k` returns `k`. -/
theorem from_byte_idx_in_char (bytes cs : List Nat) (hv : ValidUtf8 bytes cs)
    (k i hd : Nat) (hk : k < cs.length)
    (h1 : offsetOf cs k ≤ i) (h2 : i < offsetOf cs (k + 1)) :
    from_byte_idx bytes i hd = some k := by
  obtain ⟨j, hsnap, hle, hnc, hall⟩ :=
    snapBack_char bytes (contAt_zero_valid bytes cs hv) i
  have hj : j = offsetOf cs k := by
    rcases Nat.lt_trichotomy j (offsetOf cs k) with h | h | h
    · exfalso
      have := hall (offsetOf cs k) h h1
      rw [contAt_offsetOf bytes cs hv k hk] at this
      cases this
    · exact h
    · exfalso
      have := contAt_inside bytes cs hv k j hk h (by omega)
      rw [hnc] at this
      cases this
  subst hj
  rw [from_byte_idx_eq_of_snap bytes i hd _ hsnap,
    countByByte_take_offsetOf bytes cs hv k (by omega)]

/-- `from_byte_idx` at or past the end returns the one-past-the-end
character index. -/
theorem from_byte_idx_past_end (bytes cs : List Nat) (hv : ValidUtf8 bytes cs)
    (i hd : Nat) (h : bytes.length ≤ i) :
    from_byte_idx bytes i hd = some cs.length := by
  have hsnap := snapBack_noncont bytes i (contAt_past_end bytes i h)
  rw [from_byte_idx_eq_of_snap bytes i hd i hsnap,
    List.take_of_length_le h, hv.2,
    countByByte_encoding cs hv.1]

/-! ## The naive seek on valid strings -/

/-- Once the target is at least the total char count, the naive seek
runs to the end of the input. -/
theorem naive_past_end (bytes : List Nat) (charIdx : Nat)
    (h : countByByte bytes ≤ charIdx) :
    to_byte_idx_naive bytes charIdx = bytes.length := by
  unfold to_byte_idx_naive
  rw [naiveScan_eq_byteScan, byteScan_nobreak charIdx bytes 0 0 (by omega)]
  simp

/-- On a valid string, the naive seek returns the start offset of the
addressed character. -/
theorem naive_at_char (bytes cs : List Nat) (hv : ValidUtf8 bytes cs)
    (k : Nat) (hk : k < cs.length) :
    to_byte_idx_naive bytes k = offsetOf cs k := by
  unfold to_byte_idx_naive
  rw [naiveScan_eq_byteScan]
  have hoffle : offsetOf cs k ≤ bytes.length := by
    rw [hv.2]; exact offsetOf_le_length cs k
  have hncb : countByByte (bytes.take (offsetOf cs k)) = k :=
    countByByte_take_offsetOf bytes cs hv k (by omega)
  conv_lhs => rw [← List.take_append_drop (offsetOf cs k) bytes]
  rw [byteScan_append_le k _ _ 0 0 (by omega)]
  rw [List.length_take_of_le hoffle, hncb]
  -- the dropped part starts with the (non-continuation) first byte of
  -- character k
  obtain ⟨c, rest, hcr⟩ : ∃ c rest, cs.drop k = c :: rest := by
    cases hd : cs.drop k with
    | nil =>
      have := List.drop_eq_nil_iff.mp hd
      omega
    | cons c rest => exact ⟨c, rest, rfl⟩
  have hdrop : bytes.drop (offsetOf cs k) = ((cs.drop k).map encodeChar).flatten := by
    rw [hv.2]; exact drop_offsetOf cs k
  obtain ⟨b0, bs, henc⟩ : ∃ b0 bs, encodeChar c = b0 :: bs := by
    cases he : encodeChar c with
    | nil =>
      have := encodeChar_length_pos c
      rw [he] at this
      simp at this
    | cons b0 bs => exact ⟨b0, bs, rfl⟩
  have hb0 : isCont b0 = false := by
    have hc : IsScalar c := hv.1 c (by
      have : c ∈ cs.drop k := by rw [hcr]; simp
      exact List.mem_of_mem_drop this)
    have := encodeChar_head c hc
    rwa [henc, List.getD_cons_zero] at this
  rw [hdrop, hcr]
  simp only [List.map_cons, List.flatten_cons, henc, List.cons_append]
  simp only [byteScan, ncbyte, hb0, Bool.false_eq_true, if_false]
  rw [if_pos (by omega)]
  simp

/-- The naive seek always stops at a character boundary of a valid
string. -/
theorem naive_boundary (bytes cs : List Nat) (hv : ValidUtf8 bytes cs)
    (charIdx : Nat) :
    ∃ k, k ≤ cs.length ∧ to_byte_idx_naive bytes charIdx = offsetOf cs k := by
  unfold to_byte_idx_naive
  rw [naiveScan_eq_byteScan]
  rcases byteScan_stop_pos charIdx bytes 0 0 (by omega) with h | ⟨i, hi, heq, hnc⟩
  · refine ⟨cs.length, le_rfl, ?_⟩
    rw [h, offsetOf_length, ← hv.2]
    omega
  · have hnc' : isCont (((cs.map encodeChar).flatten).getD i 0) = false := by
      rw [← hv.2]; exact hnc
    obtain ⟨k, hk, hoff⟩ := flat_noncont_is_offset cs i hv.1
      (by rw [← hv.2]; exact hi) hnc'
    exact ⟨k, by omega, by rw [heq, hoff]; omega⟩

/-- `from_byte_idx` values: existence, prefix-count characterization,
and the snap position itself. -/
theorem from_byte_idx_val (bytes cs : List Nat) (hv : ValidUtf8 bytes cs)
    (i hd : Nat) :
    ∃ j, snapBack bytes i = some j ∧
      from_byte_idx bytes i hd = some (countByByte (bytes.take j)) ∧
      j ≤ i ∧ contAt bytes j = false ∧
      (∀ t, j < t → t ≤ i → contAt bytes t = true) := by
  obtain ⟨j, hsnap, hle, hnc, hall⟩ :=
    snapBack_char bytes (contAt_zero_valid bytes cs hv) i
  exact ⟨j, hsnap, from_byte_idx_eq_of_snap bytes i hd j hsnap, hle, hnc, hall⟩

/-- The snap position is monotone in the probed byte offset. -/
theorem snapBack_mono (bytes cs : List Nat) (hv : ValidUtf8 bytes cs)
    (i1 i2 : Nat) (h12 : i1 ≤ i2) :
    ∀ j1 j2, snapBack bytes i1 = some j1 → snapBack bytes i2 = some j2 →
    j1 ≤ j2 := by
  intro j1 j2 h1 h2
  obtain ⟨j1', hsnap1, hle1, hnc1, -⟩ :=
    snapBack_char bytes (contAt_zero_valid bytes cs hv) i1
  obtain ⟨j2', hsnap2, -, -, hall2⟩ :=
    snapBack_char bytes (contAt_zero_valid bytes cs hv) i2
  rw [h1] at hsnap1
  rw [h2] at hsnap2
  cases hsnap1
  cases hsnap2
  by_contra hcon
  push_neg at hcon
  have := hall2 j1 (by omega) (by omega)
  rw [hnc1] at this
  cases this

/-- Prefix counts are bounded by the total character count. -/
theorem countByByte_take_le_total (bytes cs : List Nat)
    (hv : ValidUtf8 bytes cs) (j : Nat) :
    countByByte (bytes.take j) ≤ cs.length := by
  calc countByByte (bytes.take j) ≤ countByByte bytes := by
        rcases Nat.le_total j bytes.length with h | h
        · have := countByByte_take_le bytes h
          rwa [List.take_length] at this
        · rw [List.take_of_length_le h]
    _ = cs.length := by rw [hv.2]; exact countByByte_encoding cs hv.1

/-! ## Claim theorems -/

/-- C1: for every byte sequence (under every alignment split, so via
both the short-string branch and the chunked branch) `count` returns
the length minus the number of continuation bytes, and on every valid
UTF-8 string it therefore returns the number of Unicode scalar
values. -/
theorem count_correct :
    (∀ (bytes : List Nat) (hd : Nat),
      count bytes hd = bytes.length - contCount bytes) ∧
    (∀ (bytes cs : List Nat) (hd : Nat), ValidUtf8 bytes cs →
      count bytes hd = cs.length) := by
  constructor
  · intro bytes hd
    rw [count, count_impl_eq, countByByte_eq_sub]
  · intro bytes cs hd hv
    rw [count, count_impl_eq, hv.2, countByByte_encoding cs hv.1]

theorem count_correct_witness :
    count [0xE2, 0x82, 0xAC] 0 = 1 :=
  count_correct.2 [0xE2, 0x82, 0xAC] [0x20AC] 0 ⟨by decide, by decide⟩

/-- C2: for every byte sequence (well-formed or malformed), every
alignment split and every target char index, the chunked seek
(head scan, fast-skip rounds, slow per-chunk scan, tail scan) returns
exactly the byte offset of the naive per-byte reference scan. -/
theorem to_byte_idx_refines_naive (bytes : List Nat) (hd charIdx : Nat) :
    to_byte_idx bytes hd charIdx = to_byte_idx_naive bytes charIdx :=
  to_byte_idx_impl_eq_naive bytes hd charIdx

/-- C3: on a valid UTF-8 string, `from_byte_idx` returns the character
index of the character containing the probed byte, and any probe past
the end returns the one-past-the-end character index. -/
theorem from_byte_idx_correct (bytes cs : List Nat) (hv : ValidUtf8 bytes cs)
    (hd : Nat) :
    (∀ k i, k < cs.length → offsetOf cs k ≤ i → i < offsetOf cs (k + 1) →
      from_byte_idx bytes i hd = some k) ∧
    (∀ i, bytes.length < i → from_byte_idx bytes i hd = some cs.length) := by
  constructor
  · intro k i hk h1 h2
    exact from_byte_idx_in_char bytes cs hv k i hd hk h1 h2
  · intro i hi
    exact from_byte_idx_past_end bytes cs hv i hd (by omega)

theorem from_byte_idx_correct_witness :
    from_byte_idx [0xE2, 0x82, 0xAC, 0xE2, 0x82, 0xAC, 0xE2, 0x82, 0xAC] 4 0 =
      some 1 :=
  (from_byte_idx_correct [0xE2, 0x82, 0xAC, 0xE2, 0x82, 0xAC, 0xE2, 0x82, 0xAC]
    [0x20AC, 0x20AC, 0x20AC] ⟨by decide, by decide⟩ 0).1 1 4
    (by decide) (by decide) (by decide)

/-- C4: the round trip `to_byte_idx (s, from_byte_idx (s, b)) = b` holds
at every character-start boundary `b` of a valid string, under any
alignment splits. -/
theorem round_trip (bytes cs : List Nat) (hv : ValidUtf8 bytes cs)
    (k hd hd' : Nat) (hk : k < cs.length) :
    ∃ j, from_byte_idx bytes (offsetOf cs k) hd = some j ∧
      to_byte_idx bytes hd' j = offsetOf cs k := by
  have h2 := offsetOf_lt_succ cs k hk
  refine ⟨k, from_byte_idx_in_char bytes cs hv k _ hd hk le_rfl h2, ?_⟩
  rw [to_byte_idx, to_byte_idx_impl_eq_naive, naive_at_char bytes cs hv k hk]

theorem round_trip_witness :
    ∃ j, from_byte_idx [0xE2, 0x82, 0xAC, 0xE2, 0x82, 0xAC, 0xE2, 0x82, 0xAC]
        3 0 = some j ∧
      to_byte_idx [0xE2, 0x82, 0xAC, 0xE2, 0x82, 0xAC, 0xE2, 0x82, 0xAC]
        2 j = 3 := by
  have hoff : offsetOf [0x20AC, 0x20AC, 0x20AC] 1 = 3 := by decide
  have h := round_trip [0xE2, 0x82, 0xAC, 0xE2, 0x82, 0xAC, 0xE2, 0x82, 0xAC]
    [0x20AC, 0x20AC, 0x20AC] ⟨by decide, by decide⟩ 1 0 2 (by decide)
  rw [hoff] at h
  exact h

/-- C5: for a valid UTF-8 string, any char index at or past the total
character count seeks to the one-past-the-end byte offset; in
particular `to_byte_idx (s, count s) = byte_length s`. -/
theorem to_byte_idx_clamps (bytes cs : List Nat) (_hv : ValidUtf8 bytes cs)
    (hd hd' charIdx : Nat) :
    (count bytes hd' ≤ charIdx → to_byte_idx bytes hd charIdx = bytes.length) ∧
    to_byte_idx bytes hd (count bytes hd') = bytes.length := by
  have hcount : count bytes hd' = countByByte bytes := count_impl_eq bytes hd'
  constructor
  · intro h
    rw [to_byte_idx, to_byte_idx_impl_eq_naive,
      naive_past_end bytes charIdx (by omega)]
  · rw [to_byte_idx, to_byte_idx_impl_eq_naive,
      naive_past_end bytes _ (by omega)]

theorem to_byte_idx_clamps_witness :
    to_byte_idx [0xE2, 0x82, 0xAC, 0xE2, 0x82, 0xAC, 0xE2, 0x82, 0xAC] 0
      (count [0xE2, 0x82, 0xAC, 0xE2, 0x82, 0xAC, 0xE2, 0x82, 0xAC] 5) = 9 := by
  have h := (to_byte_idx_clamps [0xE2, 0x82, 0xAC, 0xE2, 0x82, 0xAC, 0xE2, 0x82, 0xAC]
    [0x20AC, 0x20AC, 0x20AC] ⟨by decide, by decide⟩ 0 5 0).2
  simpa using h

/-- C6: on a valid UTF-8 string, `from_byte_idx` is defined on every
byte offset of `[0, byte_length]`, monotonically non-decreasing there,
and its values stay within `[0, count s]`. -/
theorem from_byte_idx_monotone (bytes cs : List Nat) (hv : ValidUtf8 bytes cs)
    (i1 i2 hd : Nat) (h12 : i1 ≤ i2) (_hrange : i2 ≤ bytes.length) :
    ∃ a b, from_byte_idx bytes i1 hd = some a ∧
      from_byte_idx bytes i2 hd = some b ∧ a ≤ b ∧ b ≤ cs.length := by
  obtain ⟨j1, hs1, hf1, -, -, -⟩ := from_byte_idx_val bytes cs hv i1 hd
  obtain ⟨j2, hs2, hf2, -, -, -⟩ := from_byte_idx_val bytes cs hv i2 hd
  refine ⟨_, _, hf1, hf2, ?_, countByByte_take_le_total bytes cs hv j2⟩
  exact countByByte_take_le bytes (snapBack_mono bytes cs hv i1 i2 h12 j1 j2 hs1 hs2)

theorem from_byte_idx_monotone_witness :
    ∃ a b, from_byte_idx [0xE2, 0x82, 0xAC, 0xE2, 0x82, 0xAC, 0xE2, 0x82, 0xAC]
        2 0 = some a ∧
      from_byte_idx [0xE2, 0x82, 0xAC, 0xE2, 0x82, 0xAC, 0xE2, 0x82, 0xAC]
        4 0 = some b ∧ a ≤ b ∧ b ≤ 3 := by
  have h := from_byte_idx_monotone
    [0xE2, 0x82, 0xAC, 0xE2, 0x82, 0xAC, 0xE2, 0x82, 0xAC]
    [0x20AC, 0x20AC, 0x20AC] ⟨by decide, by decide⟩ 2 4 0 (by decide) (by decide)
  simpa using h

/-- C7: on a valid UTF-8 string, `to_byte_idx` always returns a
character boundary — the start offset of some character or the byte
length (the start offset of index `count s`). -/
theorem to_byte_idx_boundary (bytes cs : List Nat) (hv : ValidUtf8 bytes cs)
    (hd charIdx : Nat) :
    ∃ k, k ≤ cs.length ∧ to_byte_idx bytes hd charIdx = offsetOf cs k := by
  rw [to_byte_idx, to_byte_idx_impl_eq_naive]
  exact naive_boundary bytes cs hv charIdx

theorem to_byte_idx_boundary_witness :
    ∃ k, k ≤ 3 ∧
      to_byte_idx [0xE2, 0x82, 0xAC, 0xE2, 0x82, 0xAC, 0xE2, 0x82, 0xAC] 2 1 =
        offsetOf [0x20AC, 0x20AC, 0x20AC] k := by
  have h := to_byte_idx_boundary
    [0xE2, 0x82, 0xAC, 0xE2, 0x82, 0xAC, 0xE2, 0x82, 0xAC]
    [0x20AC, 0x20AC, 0x20AC] ⟨by decide, by decide⟩ 2 1
  simpa using h

/-- C8: an accumulation round of at most `MAX_ACC` chunks never wraps:
the wrapping per-lane addition agrees with exact addition and every
lane stays at most `round.length ≤ 255`; moreover both call sites
respect the bound — `count_impl`'s grouping produces only rounds of at
most `MAX_ACC` chunks, and `to_byte_idx_impl`'s round length is capped
at `MAX_ACC` by construction. -/
theorem accumulation_no_overflow :
    (∀ round : List (List Nat), round.length ≤ MAX_ACC →
      (∀ c ∈ round, c.length = SIZE) →
      roundAcc round = roundAccExact round ∧
      ∀ x ∈ roundAcc round, x ≤ round.length ∧ round.length ≤ 255) ∧
    (∀ (mid : List (List Nat)) (r : List (List Nat)),
      r ∈ groupsOf MAX_ACC mid → r.length ≤ MAX_ACC) ∧
    (∀ mrl clen : Nat, min MAX_ACC (min mrl clen) ≤ MAX_ACC) := by
  refine ⟨?_, ?_, ?_⟩
  · intro round h1 h2
    obtain ⟨he, hb, -⟩ := roundAcc_spec round h1 h2
    refine ⟨he, fun x hx => ⟨hb x hx, ?_⟩⟩
    have h255 : MAX_ACC = 255 := rfl
    omega
  · intro mid r hr
    exact groupsOf_mem_length MAX_ACC mid r hr
  · intro mrl clen
    exact Nat.min_le_left _ _

theorem accumulation_no_overflow_witness :
    roundAcc [List.replicate 16 0x80] = roundAccExact [List.replicate 16 0x80] :=
  (accumulation_no_overflow.1 [List.replicate 16 0x80]
    (by decide) (by decide)).1

/-- C9: the fast-skip phase, entered with its budget
`(char_idx - char_count) / MAX_ACC` as in `to_byte_idx_impl`, never
lets the char counter overshoot the target. -/
theorem fast_skip_no_overshoot (chunks : List (List Nat)) (charIdx cc bc : Nat)
    (hsz : ∀ c ∈ chunks, c.length = SIZE) (hcc : cc ≤ charIdx) :
    cc ≤ (fastSkip ((charIdx - cc) / MAX_ACC) ((charIdx - cc) / MAX_ACC)
        chunks cc bc).2.1 ∧
      (fastSkip ((charIdx - cc) / MAX_ACC) ((charIdx - cc) / MAX_ACC)
        chunks cc bc).2.1 ≤ charIdx := by
  have hdiv : cc + MAX_ACC * ((charIdx - cc) / MAX_ACC) ≤ charIdx := by
    have := Nat.mul_div_le (charIdx - cc) MAX_ACC
    omega
  obtain ⟨k, -, heq, hle⟩ :=
    fastSkip_spec _ _ chunks cc bc charIdx le_rfl hsz hdiv
  rw [heq]
  exact ⟨by simp, by simpa using hle⟩

theorem fast_skip_no_overshoot_witness :
    0 ≤ (fastSkip ((600 - 0) / MAX_ACC) ((600 - 0) / MAX_ACC)
        [List.replicate 16 65] 0 0).2.1 ∧
      (fastSkip ((600 - 0) / MAX_ACC) ((600 - 0) / MAX_ACC)
        [List.replicate 16 65] 0 0).2.1 ≤ 600 :=
  fast_skip_no_overshoot [List.replicate 16 65] 600 0 0 (by decide) (by decide)

/-- C10: on a valid UTF-8 string (whose first byte, if any, is never a
continuation byte) the backward walk of `from_byte_idx` terminates for
every probed offset without stepping below index 0, landing on a
non-continuation byte (or starting at or past the end), so
`from_byte_idx` is total there. -/
theorem snap_back_no_underflow (bytes cs : List Nat) (hv : ValidUtf8 bytes cs)
    (byteIdx hd : Nat) :
    ∃ j, snapBack bytes byteIdx = some j ∧ j ≤ byteIdx ∧
      (bytes.length ≤ j ∨ contAt bytes j = false) ∧
      (from_byte_idx bytes byteIdx hd).isSome = true := by
  obtain ⟨j, hs, hle, hnc, -⟩ :=
    snapBack_char bytes (contAt_zero_valid bytes cs hv) byteIdx
  refine ⟨j, hs, hle, Or.inr hnc, ?_⟩
  rw [from_byte_idx_eq_of_snap bytes byteIdx hd j hs]
  rfl

theorem snap_back_no_underflow_witness :
    ∃ j, snapBack [0xE2, 0x82, 0xAC, 0xE2, 0x82, 0xAC, 0xE2, 0x82, 0xAC] 5 =
        some j ∧ j ≤ 5 ∧
      (9 ≤ j ∨ contAt [0xE2, 0x82, 0xAC, 0xE2, 0x82, 0xAC, 0xE2, 0x82, 0xAC]
        j = false) ∧
      (from_byte_idx [0xE2, 0x82, 0xAC, 0xE2, 0x82, 0xAC, 0xE2, 0x82, 0xAC]
        5 0).isSome = true := by
  have h := snap_back_no_underflow
    [0xE2, 0x82, 0xAC, 0xE2, 0x82, 0xAC, 0xE2, 0x82, 0xAC]
    [0x20AC, 0x20AC, 0x20AC] ⟨by decide, by decide⟩ 5 0
  simpa using h

end StrIndices
